import Mathlib

/-!
Verification development for the bidboost backend core algorithms:
the contract match scorer (app/services/match_scoring.py) and the
legal document chunker (app/services/legal_chunker.py).

Python strings are modelled as `List Char`; Python numeric values
(floats / Decimals) are modelled as `ℚ` (the scoring arithmetic uses
only +, *, /, min, max and comparisons, which are exact on the rationals);
`None`-able values are modelled as `Option`.  Python truthiness tests on
these values (`if x:`) are modelled explicitly: a numeric value is truthy
iff it is present and nonzero, a string iff it is present and nonempty,
a list iff it is nonempty.
-/

/-! ### Character and string helpers (ASCII semantics of the Python code) -/

/-- Python whitespace class for the relevant ASCII characters
(space, tab, newline, vertical tab, form feed, carriage return). -/
def wsB (c : Char) : Bool :=
  c == ' ' || c == '\t' || c == '\n' || c == '\x0b' || c == '\x0c' || c == '\r'

/-- ASCII digit, the regex class d. -/
def digitB (c : Char) : Bool := decide (48 ≤ c.toNat ∧ c.toNat ≤ 57)

/-- ASCII uppercase letter, the regex class A-Z (no IGNORECASE). -/
def upperB (c : Char) : Bool := decide (65 ≤ c.toNat ∧ c.toNat ≤ 90)

/-- ASCII letter or digit: the regex class A-Z0-9 under re.IGNORECASE. -/
def alnumB (c : Char) : Bool :=
  decide ((65 ≤ c.toNat ∧ c.toNat ≤ 90) ∨ (97 ≤ c.toNat ∧ c.toNat ≤ 122) ∨
          (48 ≤ c.toNat ∧ c.toNat ≤ 57))

/-- ASCII lowercasing, as Python str.lower() acts on ASCII text. -/
def lowC (c : Char) : Char :=
  if 65 ≤ c.toNat ∧ c.toNat ≤ 90 then Char.ofNat (c.toNat + 32) else c

/-- str.lower() on a whole string. -/
def lowerL (l : List Char) : List Char := l.map lowC

/-- Does `hay` start with `needle` (exact characters)? -/
def startsWith : List Char → List Char → Bool
  | _, [] => true
  | [], _ :: _ => false
  | a :: as, b :: bs => a == b && startsWith as bs

/-- Does `hay` start with `needle` up to ASCII case (re.IGNORECASE)? -/
def startsWithCI : List Char → List Char → Bool
  | _, [] => true
  | [], _ :: _ => false
  | a :: as, b :: bs => lowC a == lowC b && startsWithCI as bs

/-- Python substring test `needle in hay`. -/
def substr (needle : List Char) : List Char → Bool
  | [] => startsWith [] needle
  | hay@(_ :: t) => startsWith hay needle || substr needle t

/-- Truthiness of an optional numeric value: present and nonzero. -/
def truthyQ (v : Option ℚ) : Bool :=
  match v with
  | none => false
  | some x => x != 0

/-- Truthiness of an optional string: present and nonempty. -/
def truthyS (s : Option (List Char)) : Bool :=
  match s with
  | none => false
  | some l => !l.isEmpty

/-! ### Data model of the scorer (app/models, as read by the scorer) -/

/-- The fields of a Contract row that `ContractMatchScorer` reads. -/
structure Contract where
  title : List Char
  description : Option (List Char)
  buyer_name : Option (List Char)
  contract_value : Option ℚ
  region : Option (List Char)
  qdrant_id : Option (List Char)

/-- The fields of a PastWin row that the scorer reads. -/
structure PastWin where
  buyer_name : Option (List Char)
  contract_value : Option ℚ

/-- The fields of a SearchPreference row that the scorer reads.  A Python
`None` list and an empty list are both falsy, so list fields are modelled
as plain lists with `[]` for the absent case. -/
structure SearchPreference where
  min_contract_value : Option ℚ
  max_contract_value : Option ℚ
  preferred_regions : List (List Char)
  excluded_categories : List (List Char)
  keywords : List (List Char)

/-- The fields of a CompanyCapability row that the scorer reads. -/
structure CompanyCapability where
  capability_text : List Char
  qdrant_id : Option (List Char)

/-- The fields of a CompanyProfile row (with relationships) that the
scorer reads. -/
structure CompanyProfile where
  capabilities : List CompanyCapability
  past_wins : List PastWin
  search_preference : Option SearchPreference

/-- The numeric part of the scores dict built by score_contract
(match_scoring.py lines 190-196 and 226-230); the advisory
match_reasons strings are display-only and are not modelled. -/
structure MatchScores where
  capability_score : ℚ
  past_win_score : ℚ
  preference_score : ℚ
  total_score : ℚ

/-! ### _calculate_preference_score (match_scoring.py lines 337-405) -/

/-- The lowercased `f"{contract.title} {contract.description or ''}"`
used by the excluded-category and keyword filters (lines 375 and 394). -/
def contractText (c : Contract) : List Char :=
  lowerL (c.title ++ ' ' :: c.description.getD [])

/-- The value-range hard filter (lines 360-367): sets passes_filters to
False when the (truthy) contract value is below a truthy minimum or above
a truthy maximum. -/
def valuePassB (c : Contract) (p : SearchPreference) : Bool :=
  if truthyQ c.contract_value then
    let v := c.contract_value.getD 0
    !(truthyQ p.min_contract_value && decide (v < p.min_contract_value.getD 0)) &&
    !(truthyQ p.max_contract_value && decide (p.max_contract_value.getD 0 < v))
  else true

/-- The excluded-categories hard filter (lines 374-380): fails when any
excluded category occurs, lowercased, in the contract text. -/
def excludedPassB (c : Contract) (p : SearchPreference) : Bool :=
  if p.excluded_categories.isEmpty then true
  else !(p.excluded_categories.any (fun cat => substr (lowerL cat) (contractText c)))

/-- The soft region adjustment (lines 385-390): the running score starts
at 1.0; when preferred regions are configured and the contract has a
truthy region, a preferred region adds +0.2 and any other region
multiplies the score by 0.6. -/
def regionAdjusted (c : Contract) (p : SearchPreference) : ℚ :=
  if !p.preferred_regions.isEmpty && truthyS c.region then
    if c.region.getD [] ∈ p.preferred_regions then 1 + 0.2 else 1 * 0.6
  else 1

/-- The matched preference keywords (line 395). -/
def matchedKeywords (c : Contract) (p : SearchPreference) : List (List Char) :=
  p.keywords.filter (fun kw => substr (lowerL kw) (contractText c))

/-- The soft keyword adjustment (lines 393-400): +0.15 per matched
keyword on top of the region-adjusted score. -/
def keywordAdjusted (c : Contract) (p : SearchPreference) : ℚ :=
  if !p.keywords.isEmpty then
    if !(matchedKeywords c p).isEmpty then
      regionAdjusted c p + (matchedKeywords c p).length * 0.15
    else regionAdjusted c p
  else regionAdjusted c p

/-- The soft part of the preference score (lines 353-403): base 1.0,
region and keyword adjustments, and a final cap at 1.0 (line 403). -/
def softScore (c : Contract) (p : SearchPreference) : ℚ :=
  min (keywordAdjusted c p) 1

/-- _calculate_preference_score: returns (score, passes_filters).  With no
preferences configured it returns (1.0, True) unconditionally (line 351). -/
def calculate_preference_score (c : Contract) (prefs : Option SearchPreference) :
    ℚ × Bool :=
  match prefs with
  | none => (1, true)
  | some p => (softScore c p, valuePassB c p && excludedPassB c p)

/-! ### _calculate_past_win_score (match_scoring.py lines 292-335) -/

/-- The score contribution of a single past win (lines 307-330):
+0.6 for an exact lowercased buyer match, else +0.4 for a substring
match either way; independently +0.3 when both values are truthy and
min/max ratio exceeds 0.5. -/
def pastWinIncrement (c : Contract) (w : PastWin) : ℚ :=
  let buyerPart : ℚ :=
    if truthyS c.buyer_name && truthyS w.buyer_name then
      let bl := lowerL (c.buyer_name.getD [])
      let wl := lowerL (w.buyer_name.getD [])
      if wl == bl then 0.6
      else if substr wl bl || substr bl wl then 0.4
      else 0
    else 0
  let valuePart : ℚ :=
    if truthyQ c.contract_value && truthyQ w.contract_value then
      let cv := c.contract_value.getD 0
      let wv := w.contract_value.getD 0
      if 1 / 2 < min cv wv / max cv wv then 0.3 else 0
    else 0
  buyerPart + valuePart

/-- _calculate_past_win_score: additive accumulation over all past wins,
capped at 1.0; 0.0 when there are no past wins. -/
def calculate_past_win_score (c : Contract) (wins : List PastWin) : ℚ :=
  if wins.isEmpty then 0
  else min (wins.foldl (fun acc w => acc + pastWinIncrement c w) 0) 1

/-! ### _calculate_capability_score (match_scoring.py lines 236-290)

The Qdrant retrievals and the numpy cosine computation (lines 246-274)
are external float I/O; the list of cosine-similarity values collected
for the capabilities that have a stored embedding is passed in as
`capSims`, and the fact that the contract vector was found in the store
(line 254) as `contract_in_store`.  The mathematical cosine itself is
modelled below as `cosine_similarity`; its range is [-1, 1]. -/

/-- Stable insertion into a list sorted by `le`: `x` goes after every
element `y` with `le y x`, so equal elements keep their original order,
as in Python's stable sort. -/
def insBy {α : Type} (le : α → α → Bool) (x : α) : List α → List α
  | [] => [x]
  | y :: ys => if le y x then y :: insBy le x ys else x :: y :: ys

/-- Stable insertion sort by `le` (structural recursion, so it reduces
in the kernel); models Python's list.sort / sorted, which are stable. -/
def isortBy {α : Type} (le : α → α → Bool) : List α → List α
  | [] => []
  | x :: xs => insBy le x (isortBy le xs)

/-- similarities.sort(reverse=True) (line 281): descending order. -/
def sortDescQ (l : List ℚ) : List ℚ := isortBy (fun a b => decide (b ≤ a)) l

/-- _calculate_capability_score: 0.0 when there are no capabilities or no
contract embedding reference (line 242), 0.0 when the contract vector is
absent from the store (line 254), 0.0 when no capability produced a
similarity (line 276), else the mean of the top 3 similarities. -/
def calculate_capability_score (capabilities : List CompanyCapability)
    (contract_qdrant_id : Option (List Char)) (contract_in_store : Bool)
    (capSims : List ℚ) : ℚ :=
  if capabilities.isEmpty || !truthyS contract_qdrant_id then 0
  else if !contract_in_store then 0
  else if capSims.isEmpty then 0
  else
    let top := (sortDescQ capSims).take 3
    top.sum / top.length

/-- numpy dot product of two equal-length vectors. -/
def dotQ (v w : List ℚ) : ℚ := ((v.zip w).map (fun p => p.1 * p.2)).sum

/-- _cosine_similarity (lines 407-419): dot(v, w) / (norm v * norm w) with
a zero-norm guard returning 0.0.  numpy float arithmetic is idealised as
real arithmetic.  Despite the docstring claim of a "0-1 range", the
mathematical range of this function is [-1, 1]. -/
noncomputable def cosine_similarity (v w : List ℚ) : ℝ :=
  let np : ℝ := Real.sqrt (dotQ v v) * Real.sqrt (dotQ w w)
  if np = 0 then 0 else (dotQ v w : ℝ) / np

/-! ### score_contract (match_scoring.py lines 172-234) -/

/-- score_contract: None when no profile exists for the firm (line 185);
otherwise compute the three component scores, return None when the
preference hard filters fail (line 221), else the weighted total
0.4 * capability + 0.3 * past_win + 0.3 * preference (lines 226-230). -/
def score_contract (c : Contract) (profile : Option CompanyProfile)
    (contract_in_store : Bool) (capSims : List ℚ) : Option MatchScores :=
  match profile with
  | none => none
  | some p =>
    let cap := calculate_capability_score p.capabilities c.qdrant_id
      contract_in_store capSims
    let win := calculate_past_win_score c p.past_wins
    let pref := calculate_preference_score c p.search_preference
    if !pref.2 then none
    else some
      { capability_score := cap
        past_win_score := win
        preference_score := pref.1
        total_score := cap * 0.4 + win * 0.3 + pref.1 * 0.3 }


/-! ### Legal document chunker: regex matchers (legal_chunker.py lines 18-25)

The three boundary patterns and the page-marker pattern are simple enough
to admit deterministic matchers: in each of them every quantified piece
(s*, d+, the keyword alternation, the (?:d+.)* group) is followed by a
token disjoint from the quantified character class, so the greedy,
backtracking-free reading below is exactly the Python re semantics.
A matcher takes the suffix of the document starting at the attempted
position and returns the number of characters consumed (and for the page
marker also the captured page number). -/

/-- Length of the leading whitespace run (the greedy s*). -/
def wsCount (s : List Char) : ℕ := (s.takeWhile wsB).length

/-- Length of the leading digit run (the greedy d+ when positive). -/
def digCount (s : List Char) : ℕ := (s.takeWhile digitB).length

/-- Greedy parse of (?:d+.)*: total characters consumed.  Fuel-structural
so that it reduces in the kernel; each iteration consumes at least two
characters, so fuel = length of the suffix always suffices. -/
def dotGroups : ℕ → List Char → ℕ
  | 0, _ => 0
  | fuel+1, s =>
    let d := digCount s
    if d = 0 then 0
    else
      match s.drop d with
      | '.' :: rest => d + 1 + dotGroups fuel rest
      | _ => 0

/-- The numbered_clause pattern (line 19): MULTILINE
caret s* d+ . (?:d+.)* s+ [A-Z] (no IGNORECASE). -/
def matchNumbered (s : List Char) : Option ℕ :=
  let w := wsCount s
  let s1 := s.drop w
  let d := digCount s1
  if d = 0 then none
  else
    match s1.drop d with
    | '.' :: s2 =>
      let g := dotGroups s2.length s2
      let s3 := s2.drop g
      let w2 := wsCount s3
      if w2 = 0 then none
      else
        match (s3.drop w2).head? with
        | some ch => if upperB ch then some (w + d + 1 + g + w2 + 1) else none
        | none => none
    | _ => none

/-- First keyword of the alternation matching case-insensitively at the
front of `s` (the alternatives are mutually non-prefix, so the first match
is the only match); returns its length. -/
def kwFind (ws : List (List Char)) (s : List Char) : Option ℕ :=
  match ws.find? (fun w => startsWithCI s w) with
  | some w => some w.length
  | none => none

/-- The section_header alternation SECTION|ARTICLE|CLAUSE (line 21). -/
def secWords : List (List Char) :=
  [['S', 'E', 'C', 'T', 'I', 'O', 'N'],
   ['A', 'R', 'T', 'I', 'C', 'L', 'E'],
   ['C', 'L', 'A', 'U', 'S', 'E']]

/-- The schedule alternation SCHEDULE|APPENDIX|ANNEX (line 23). -/
def schWords : List (List Char) :=
  [['S', 'C', 'H', 'E', 'D', 'U', 'L', 'E'],
   ['A', 'P', 'P', 'E', 'N', 'D', 'I', 'X'],
   ['A', 'N', 'N', 'E', 'X']]

/-- The section_header pattern (line 21): MULTILINE+IGNORECASE
caret s* (SECTION|ARTICLE|CLAUSE) s+ d+. -/
def matchSection (s : List Char) : Option ℕ :=
  let w := wsCount s
  let s1 := s.drop w
  match kwFind secWords s1 with
  | none => none
  | some wl =>
    let s2 := s1.drop wl
    let w2 := wsCount s2
    if w2 = 0 then none
    else
      let d := digCount (s2.drop w2)
      if d = 0 then none else some (w + wl + w2 + d)

/-- The schedule pattern (line 23): MULTILINE+IGNORECASE
caret s* (SCHEDULE|APPENDIX|ANNEX) s+ [A-Z0-9]. -/
def matchSchedule (s : List Char) : Option ℕ :=
  let w := wsCount s
  let s1 := s.drop w
  match kwFind schWords s1 with
  | none => none
  | some wl =>
    let s2 := s1.drop wl
    let w2 := wsCount s2
    if w2 = 0 then none
    else
      match (s2.drop w2).head? with
      | some ch => if alnumB ch then some (w + wl + w2 + 1) else none
      | none => none

/-- Decimal value of a digit run. -/
def natFromDigits (l : List Char) : ℕ :=
  l.foldl (fun n c => 10 * n + (c.toNat - 48)) 0

/-- The page_marker pattern (line 24): literal "[Page ", captured d+,
literal "]"; not anchored, exact case.  Returns (consumed, page number). -/
def matchPageMarker (s : List Char) : Option (ℕ × ℕ) :=
  if startsWith s ("[Page ".toList) then
    let s1 := s.drop 6
    let d := digCount s1
    if d = 0 then none
    else
      match (s1.drop d).head? with
      | some ']' => some (6 + d + 1, natFromDigits (s1.take d))
      | _ => none
  else none

/-! ### re.finditer -/

/-- One left-to-right scan of re.finditer: at each position try the
matcher (for an anchored MULTILINE pattern only at the start of the text
or just after a newline, which is what the carried previous character
tracks), and on a match record its start and payload and resume at its
end (non-overlapping matches).  Fuel-structural; every step advances the
position by at least one character, so fuel = length + 1 from position 0
always suffices and the exhaustion branch is never reached. -/
def reScanAux {A : Type} (m : List Char → Option (ℕ × A)) (anch : Bool) :
    ℕ → Option Char → ℕ → List Char → List (ℕ × A)
  | 0, _, _, _ => []
  | fuel+1, prev, p, s =>
    match s with
    | [] => []
    | c :: rest =>
      if !anch || prev == none || prev == some '\n' then
        match m s with
        | some (e, a) =>
          (p, a) :: reScanAux m anch fuel ((s.take (max e 1)).getLast?)
            (p + max e 1) (s.drop (max e 1))
        | none => reScanAux m anch fuel (some c) (p + 1) rest
      else reScanAux m anch fuel (some c) (p + 1) rest

/-- All (start, payload) matches of a pattern over a document. -/
def reScan {A : Type} (m : List Char → Option (ℕ × A)) (anch : Bool)
    (t : List Char) : List (ℕ × A) :=
  reScanAux m anch (t.length + 1) none 0 t

/-- The match start offsets of one boundary pattern class
(finditer, lines 84-86). -/
def boundaryStarts (m : List Char → Option ℕ) (t : List Char) : List ℕ :=
  (reScan (fun s => (m s).map (fun e => (e, ()))) true t).map (fun x => x.1)

/-- all_boundaries (lines 88-91): the three match lists concatenated and
stably sorted by start offset, keeping only the starts (the only match
attribute the extraction loop reads). -/
def allBoundaryStarts (t : List Char) : List ℕ :=
  isortBy (fun a b => decide (a ≤ b))
    (boundaryStarts matchNumbered t ++ boundaryStarts matchSection t ++
      boundaryStarts matchSchedule t)

/-! ### Page map (legal_chunker.py lines 50-77) -/

/-- _build_page_map: the dict {match.start(): int(match.group(1))} in
insertion order (= ascending match order). -/
def buildPageMap (t : List Char) : List (ℕ × ℕ) := reScan matchPageMarker false t

/-- Python dict lookup page_map[k]: the last binding wins.  The default 1
is unreachable when k is a key of the map. -/
def dictGet (pm : List (ℕ × ℕ)) (k : ℕ) : ℕ :=
  match pm.reverse.find? (fun e => e.1 == k) with
  | some e => e.2
  | none => 1

/-- _get_page_for_position (lines 65-77): 1 for an empty map, else the
page of the largest marker offset that is at most the position, or 1 when
no marker offset is. -/
def getPageForPosition (pm : List (ℕ × ℕ)) (pos : ℕ) : ℕ :=
  if pm.isEmpty then 1
  else
    match (pm.map (fun e => e.1)).filter (fun q => decide (q ≤ pos)) with
    | [] => 1
    | x :: xs => dictGet pm (xs.foldl max x)

/-! ### Chunk construction (legal_chunker.py lines 79-224) -/

/-- The chunk_type tag: 'clause' for the clause path (also passed to
_split_large_chunk), 'fallback' for the sentence path. -/
inductive ChunkKind : Type
  | clause : ChunkKind
  | fallback : ChunkKind
deriving DecidableEq

/-- A produced chunk: its text, the page stored in its metadata, the
clause_number metadata entry when the clause path sets one, and the
chunk_type.  The rest of the metadata is the caller's base mapping,
copied unchanged, and is not modelled. -/
structure LegalChunk where
  text : List Char
  page : ℕ
  clause_number : Option (List Char)
  kind : ChunkKind
deriving DecidableEq

/-- Python str.strip(): drop leading and trailing whitespace. -/
def stripWs (l : List Char) : List Char :=
  ((l.dropWhile wsB).reverse.dropWhile wsB).reverse

/-- Python slice text[s:e]. -/
def sliceL (t : List Char) (s e : ℕ) : List Char := (t.take e).drop s

/-- re.split(r'(?<=[.!?])s+', text) (lines 129 and 177): split at each
maximal whitespace run that directly follows '.', '!' or '?'; the runs
themselves are discarded.  Fuel-structural; every step consumes at least
one character, so fuel = length + 1 suffices and the exhaustion branch is
never reached. -/
def sentSplitAux : ℕ → Option Char → List Char → List Char → List (List Char)
  | _, _, acc, [] => [acc.reverse]
  | 0, _, acc, rest => [acc.reverse ++ rest]
  | fuel+1, prev, acc, c :: rest =>
    if (prev == some '.' || prev == some '!' || prev == some '?') && wsB c then
      acc.reverse :: sentSplitAux fuel none [] ((c :: rest).dropWhile wsB)
    else sentSplitAux fuel (some c) (c :: acc) rest

/-- The sentence pieces of a text. -/
def sentSplit (l : List Char) : List (List Char) :=
  sentSplitAux (l.length + 1) none [] l

/-- ' '.join(current_chunk): the pieces separated by single spaces. -/
def joinSpace : List (List Char) → List Char
  | [] => []
  | [s] => s
  | s :: rest => s ++ ' ' :: joinSpace rest

/-- The loop of _split_large_chunk (lines 183-211), with state
(current, current_len, relative_pos): emit the accumulated sentences when
the next one would push current_len past the threshold, resolving the
page from start_position + relative_pos at that moment; the final state
is flushed after the loop. -/
def splitChunkLoop (maxS : ℕ) (pm : List (ℕ × ℕ)) (kind : ChunkKind)
    (startPos : ℕ) :
    List (List Char) → List (List Char) → ℕ → ℕ → List LegalChunk
  | [], cur, _, relPos =>
    if cur.isEmpty then []
    else [{ text := joinSpace cur, page := getPageForPosition pm (startPos + relPos),
            clause_number := none, kind := kind }]
  | sRaw :: rest, cur, curLen, relPos =>
    let s := stripWs sRaw
    if s.isEmpty then splitChunkLoop maxS pm kind startPos rest cur curLen relPos
    else
      let page := getPageForPosition pm (startPos + relPos)
      if maxS < curLen + s.length && !cur.isEmpty then
        { text := joinSpace cur, page := page, clause_number := none, kind := kind } ::
          splitChunkLoop maxS pm kind startPos rest [s] s.length
            (relPos + s.length + 1)
      else
        splitChunkLoop maxS pm kind startPos rest (cur ++ [s]) (curLen + s.length)
          (relPos + s.length + 1)

/-- _split_large_chunk (lines 175-212). -/
def splitLargeChunk (maxS : ℕ) (pm : List (ℕ × ℕ)) (kind : ChunkKind)
    (startPos : ℕ) (text : List Char) : List LegalChunk :=
  splitChunkLoop maxS pm kind startPos (sentSplit text) [] 0 0

/-- The loop of _chunk_by_sentences (lines 135-171), with state
(current_chunk, current_length, current_position).  On an overflow the
accumulated chunk is emitted with the page resolved at current_position
(the offset counter at the overflow-triggering sentence), the last
`overlap` sentences are carried over, and the new sentence is appended
unconditionally.  Note the Python slice current_chunk[-overlap:] keeps
the whole list when overlap = 0 (a negative-zero slice), which the inner
conditional reproduces. -/
def sentChunkLoop (maxS overlap : ℕ) (pm : List (ℕ × ℕ)) :
    List (List Char) → List (List Char) → ℕ → ℕ → List LegalChunk
  | [], cur, _, pos =>
    if cur.isEmpty then []
    else [{ text := joinSpace cur, page := getPageForPosition pm pos,
            clause_number := none, kind := ChunkKind.fallback }]
  | sRaw :: rest, cur, curLen, pos =>
    let s := stripWs sRaw
    if s.isEmpty then sentChunkLoop maxS overlap pm rest cur curLen pos
    else
      let page := getPageForPosition pm pos
      if maxS < curLen + s.length && !cur.isEmpty then
        let cur2 := if overlap < cur.length then
            (if overlap = 0 then cur else cur.drop (cur.length - overlap))
          else []
        let len2 := (cur2.map List.length).sum
        { text := joinSpace cur, page := page, clause_number := none,
          kind := ChunkKind.fallback } ::
          sentChunkLoop maxS overlap pm rest (cur2 ++ [s]) (len2 + s.length)
            (pos + s.length + 1)
      else
        sentChunkLoop maxS overlap pm rest (cur ++ [s]) (curLen + s.length)
          (pos + s.length + 1)

/-- _chunk_by_sentences (lines 127-173). -/
def chunkBySentences (maxS overlap : ℕ) (pm : List (ℕ × ℕ))
    (t : List Char) : List LegalChunk :=
  sentChunkLoop maxS overlap pm (sentSplit t) [] 0 0

/-- Greedy parse of (?:.d+)* for the clause-number capture.
Fuel-structural; each iteration consumes at least two characters. -/
def dotNumTail : ℕ → List Char → List Char
  | 0, _ => []
  | fuel+1, s =>
    match s with
    | '.' :: rest =>
      let d := digCount rest
      if d = 0 then []
      else '.' :: (rest.take d ++ dotNumTail fuel (rest.drop d))
    | _ => []

/-- _extract_clause_number (lines 214-217): the capture of
caret s* (d+(?:.d+)*), or the literal string "unknown". -/
def extractClauseNumber (s : List Char) : List Char :=
  let s1 := s.drop (wsCount s)
  let d := digCount s1
  if d = 0 then ("unknown".toList)
  else s1.take d ++ dotNumTail (s1.drop d).length (s1.drop d)

/-- The chunker configuration (lines 27-30) with its defaults. -/
structure ChunkCfg where
  max_chunk_size : ℕ := 800
  min_chunk_size : ℕ := 100
  overlap_sentences : ℕ := 1

/-- The consecutive boundary pairs (start, next start or end of text)
walked by the extraction loop (lines 97-99). -/
def boundaryPairs (t : List Char) : List (ℕ × ℕ) :=
  let bs := allBoundaryStarts t
  bs.zip (bs.drop 1 ++ [t.length])

/-- The body of the extraction loop for one boundary (lines 97-123):
strip the slice, discard under 50 characters, split when longer than
max_chunk_size, else emit one clause chunk with its clause number and the
page of the boundary start. -/
def chunkForPair (cfg : ChunkCfg) (t : List Char) (pm : List (ℕ × ℕ))
    (be : ℕ × ℕ) : List LegalChunk :=
  let ct := stripWs (sliceL t be.1 be.2)
  if ct.length < 50 then []
  else if cfg.max_chunk_size < ct.length then
    splitLargeChunk cfg.max_chunk_size pm ChunkKind.clause be.1 ct
  else
    [{ text := ct, page := getPageForPosition pm be.1,
       clause_number := some (extractClauseNumber ct), kind := ChunkKind.clause }]

/-- _chunk_by_clauses (lines 79-125). -/
def chunkByClauses (cfg : ChunkCfg) (t : List Char) (pm : List (ℕ × ℕ)) :
    List LegalChunk :=
  if (allBoundaryStarts t).isEmpty then []
  else (boundaryPairs t).flatMap (chunkForPair cfg t pm)

/-- _is_poorly_structured (lines 219-224): fewer than 2 chunks, or mean
chunk length below min_chunk_size.  The float comparison
sum/count < min is written with the exact integer equivalent
sum < min * count (count is positive here). -/
def isPoorlyStructured (cfg : ChunkCfg) (cs : List LegalChunk) : Bool :=
  if cs.length < 2 then true
  else decide ((cs.map (fun c => c.text.length)).sum < cfg.min_chunk_size * cs.length)

/-- chunk_document (lines 32-48): build the page map once, try the clause
path, and fall back to sentence chunking when it produced nothing or a
poorly structured result. -/
def chunkDocument (cfg : ChunkCfg) (t : List Char) : List LegalChunk :=
  let pm := buildPageMap t
  let cs := chunkByClauses cfg t pm
  if cs.isEmpty || isPoorlyStructured cfg cs then
    chunkBySentences cfg.max_chunk_size cfg.overlap_sentences pm t
  else cs

/-! ### Concrete inputs used in counterexamples and witnesses -/

/-- Counterexample contract for claim C1: has an embedding reference. -/
def cC1 : Contract :=
  { title := ("Cloud migration".toList), description := none, buyer_name := none,
    contract_value := none, region := none, qdrant_id := some ("q1".toList) }

/-- Counterexample profile for claim C1: one capability with an embedding,
no past wins, no search preferences. -/
def prC1 : CompanyProfile :=
  { capabilities := [⟨("cloud migration".toList), some ("e1".toList)⟩],
    past_wins := [], search_preference := none }

/-- Counterexample contract for claim C4: stored contract value exactly 0. -/
def cC4 : Contract :=
  { title := ("Office refurbishment".toList), description := none, buyer_name := none,
    contract_value := some 0, region := none, qdrant_id := none }

/-- Counterexample preferences for claim C4: configured value range. -/
def pC4 : SearchPreference :=
  { min_contract_value := some 50000, max_contract_value := some 500000,
    preferred_regions := [], excluded_categories := [], keywords := [] }

/-- Counterexample profile for claim C4. -/
def prC4 : CompanyProfile :=
  { capabilities := [], past_wins := [], search_preference := some pC4 }

/-- Witness contract for claims C1/C10: region in the preferred list,
one matched keyword. -/
def cW : Contract :=
  { title := ("Cloud services for schools".toList), description := none,
    buyer_name := none, contract_value := some 100000,
    region := some ("London".toList), qdrant_id := some ("q2".toList) }

/-- Witness preferences for claims C1/C10. -/
def pW : SearchPreference :=
  { min_contract_value := some 50000, max_contract_value := some 500000,
    preferred_regions := [("London".toList)], excluded_categories := [],
    keywords := [("cloud".toList)] }

/-- Witness profile for claim C1. -/
def prW : CompanyProfile :=
  { capabilities := [⟨("cloud migration".toList), some ("e1".toList)⟩],
    past_wins := [], search_preference := some pW }

/-- The chunker configuration used by the concrete chunker evaluations:
the same algorithm with a smaller size threshold (max_chunk_size is a
constructor parameter of the chunker, line 27), which keeps the kernel
evaluations small; the constructions scale verbatim to the default 800
threshold (e.g. with an 832-character sentence in doc8's place). -/
def cfgSmall : ChunkCfg := { max_chunk_size := 60, min_chunk_size := 10 }

/-- Failing document for claim C3: a 58-character first sentence (offsets
0-57), a separating space, then a second sentence beginning with the
marker [Page 2] at offset 59.  No clause boundaries, so the sentence
fallback runs; its first emitted chunk is the 58-character prefix, whose
first character is at offset 0 on page 1, but the code resolves the page
at the position counter of the overflow-triggering second sentence, which
is past the marker. -/
def doc3 : List Char :=
  'z' :: (List.replicate 56 'a' ++ (". [Page 2] aaaa.".toList))

/-- Counterexample document for claims C7 and C8: two numbered clauses;
the first clause (81 characters) exceeds the configured 60 threshold and
is split at sentence boundaries into the pieces "1." (2 chars), a single
72-character sentence, and "tiny." (5 chars). -/
def doc8 : List Char :=
  ("1. A".toList) ++ List.replicate 70 'b' ++ (". tiny.\n2. C".toList) ++
    List.replicate 48 'c' ++ (".".toList)

/-- An oversized clause chunk at the default threshold: 842 characters
("1. A", 830 b's, ". tiny."), exactly the stripped text _chunk_by_clauses
hands to _split_large_chunk when a clause chunk exceeds 800 characters. -/
def bigClause : List Char :=
  ("1. A".toList) ++ List.replicate 830 'b' ++ (". tiny.".toList)

/-- Witness chunk for claim C7 (amended): splitting "ab. cd. ef." with
threshold 10 accumulates all three sentences (sum of lengths 9) into one
chunk. -/
def chW7 : LegalChunk :=
  { text := ("ab. cd. ef.".toList), page := 1, clause_number := none,
    kind := ChunkKind.clause }

/-- Witness document for claim C8 (amended): one numbered clause of 54
characters, within [50, 800]. -/
def docW8c : List Char :=
  ("1. Fifty characters of clause text padding aaaa bbbb.".toList)

/-- The chunk the clause path emits for docW8c. -/
def chW8 : LegalChunk :=
  { text := docW8c, page := 1, clause_number := some ("1".toList),
    kind := ChunkKind.clause }

/-- Witness document for claim C6: markers [Page 1] at offset 0 and
[Page 3] at offset 10. -/
def docW6 : List Char := ("[Page 1]ab[Page 3]cd".toList)

/-! ### Lemmas about the stable insertion sort -/

theorem mem_insBy {α : Type} (le : α → α → Bool) (x a : α) (l : List α) :
    a ∈ insBy le x l ↔ a = x ∨ a ∈ l := by
  induction l with
  | nil => simp [insBy]
  | cons y ys ih =>
    cases hle : le y x <;> (simp [insBy, hle, ih]; try tauto)

theorem insBy_perm {α : Type} (le : α → α → Bool) (x : α) (l : List α) :
    (insBy le x l).Perm (x :: l) := by
  induction l with
  | nil => simp [insBy]
  | cons y ys ih =>
    cases hle : le y x
    · simp [insBy, hle]
    · simpa [insBy, hle] using (ih.cons y).trans (List.Perm.swap x y ys)

theorem isortBy_perm {α : Type} (le : α → α → Bool) (l : List α) :
    (isortBy le l).Perm l := by
  induction l with
  | nil => simp [isortBy]
  | cons x xs ih => exact (insBy_perm le x (isortBy le xs)).trans (ih.cons x)

theorem pairwise_insBy {α : Type} (le : α → α → Bool)
    (htot : ∀ a b, le a b = true ∨ le b a = true)
    (htr : ∀ a b c, le a b = true → le b c = true → le a c = true)
    (x : α) {l : List α} (h : l.Pairwise (fun a b => le a b = true)) :
    (insBy le x l).Pairwise (fun a b => le a b = true) := by
  induction l with
  | nil => simp [insBy]
  | cons y ys ih =>
    rcases List.pairwise_cons.mp h with ⟨hy, hys⟩
    cases hle : le y x
    · have hxy : le x y = true := (htot x y).resolve_right (by simp [hle])
      rw [insBy, hle, if_neg (by simp)]
      refine List.Pairwise.cons ?_ h
      intro z hz
      rcases List.mem_cons.mp hz with rfl | hz
      · exact hxy
      · exact htr x y z hxy (hy z hz)
    · rw [insBy, hle, if_pos rfl]
      refine List.Pairwise.cons ?_ (ih hys)
      intro z hz
      rcases (mem_insBy le x z ys).mp hz with rfl | hz
      · exact hle
      · exact hy z hz

theorem pairwise_isortBy {α : Type} (le : α → α → Bool)
    (htot : ∀ a b, le a b = true ∨ le b a = true)
    (htr : ∀ a b c, le a b = true → le b c = true → le a c = true)
    (l : List α) :
    (isortBy le l).Pairwise (fun a b => le a b = true) := by
  induction l with
  | nil => simp [isortBy]
  | cons x xs ih => exact pairwise_insBy le htot htr x ih

theorem sortDescQ_perm (l : List ℚ) : (sortDescQ l).Perm l :=
  isortBy_perm _ l

theorem sortDescQ_pairwise (l : List ℚ) :
    (sortDescQ l).Pairwise (fun a b : ℚ => b ≤ a) := by
  have h := pairwise_isortBy (fun a b : ℚ => decide (b ≤ a))
    (fun a b => by rcases le_total b a with h | h <;> simp [h])
    (fun a b c hab hbc => by
      simp only [decide_eq_true_eq] at hab hbc ⊢
      exact hbc.trans hab) l
  exact h.imp (fun hab => by simpa using hab)

/-! ### Bounds on the component scores -/

theorem calculate_capability_score_bounds (caps : List CompanyCapability)
    (qid : Option (List Char)) (found : Bool) (sims : List ℚ)
    (hs : ∀ s ∈ sims, 0 ≤ s ∧ s ≤ 1) :
    0 ≤ calculate_capability_score caps qid found sims ∧
      calculate_capability_score caps qid found sims ≤ 1 := by
  unfold calculate_capability_score
  split
  · norm_num
  · split
    · norm_num
    · split
      · norm_num
      · rename_i h1 h2 h3
        have hmem : ∀ a ∈ (sortDescQ sims).take 3, 0 ≤ a ∧ a ≤ 1 := fun a ha =>
          hs a ((sortDescQ_perm sims).mem_iff.mp (List.take_subset 3 _ ha))
        have hne : sims ≠ [] := by simpa [List.isEmpty_iff] using h3
        have hlen : 0 < ((sortDescQ sims).take 3).length := by
          rw [List.length_take, (sortDescQ_perm sims).length_eq]
          have : 0 < sims.length := List.length_pos.mpr hne
          omega
        have hsum0 : 0 ≤ ((sortDescQ sims).take 3).sum :=
          List.sum_nonneg (fun x hx => (hmem x hx).1)
        have hsum1 : ((sortDescQ sims).take 3).sum ≤
            (((sortDescQ sims).take 3).length : ℚ) := by
          have := List.sum_le_card_nsmul ((sortDescQ sims).take 3) 1
            (fun x hx => (hmem x hx).2)
          simpa using this
        refine ⟨by positivity, ?_⟩
        rw [div_le_one (by exact_mod_cast hlen)]
        exact hsum1

theorem pastWinIncrement_nonneg (c : Contract) (w : PastWin) :
    0 ≤ pastWinIncrement c w := by
  unfold pastWinIncrement
  have h1 : (0:ℚ) ≤
      (if truthyS c.buyer_name && truthyS w.buyer_name then
        if lowerL (w.buyer_name.getD []) == lowerL (c.buyer_name.getD []) then (0.6:ℚ)
        else if substr (lowerL (w.buyer_name.getD [])) (lowerL (c.buyer_name.getD [])) ||
            substr (lowerL (c.buyer_name.getD [])) (lowerL (w.buyer_name.getD [])) then (0.4:ℚ)
        else 0
      else 0) := by
    split
    · split
      · norm_num
      · split <;> norm_num
    · norm_num
  have h2 : (0:ℚ) ≤
      (if truthyQ c.contract_value && truthyQ w.contract_value then
        if 1 / 2 < min (c.contract_value.getD 0) (w.contract_value.getD 0) /
            max (c.contract_value.getD 0) (w.contract_value.getD 0) then (0.3:ℚ) else 0
      else 0) := by
    split
    · split <;> norm_num
    · norm_num
  simp only []
  linarith

theorem calculate_past_win_score_bounds (c : Contract) (wins : List PastWin) :
    0 ≤ calculate_past_win_score c wins ∧ calculate_past_win_score c wins ≤ 1 := by
  unfold calculate_past_win_score
  split
  · norm_num
  · have hfold : ∀ (l : List PastWin) (init : ℚ), 0 ≤ init →
        0 ≤ l.foldl (fun acc w => acc + pastWinIncrement c w) init := by
      intro l
      induction l with
      | nil => intro init h; simpa using h
      | cons w ws ih =>
        intro init h
        rw [List.foldl_cons]
        exact ih _ (by have := pastWinIncrement_nonneg c w; linarith)
    exact ⟨le_min (hfold wins 0 le_rfl) (by norm_num), min_le_right _ _⟩

theorem regionAdjusted_lower (c : Contract) (p : SearchPreference) :
    (3 : ℚ)/5 ≤ regionAdjusted c p := by
  unfold regionAdjusted
  repeat' split
  all_goals norm_num

theorem keywordAdjusted_ge_region (c : Contract) (p : SearchPreference) :
    regionAdjusted c p ≤ keywordAdjusted c p := by
  unfold keywordAdjusted
  have hb : (0:ℚ) ≤ ((matchedKeywords c p).length : ℚ) * 0.15 := by positivity
  repeat' split
  all_goals linarith

theorem softScore_bounds (c : Contract) (p : SearchPreference) :
    (3 : ℚ)/5 ≤ softScore c p ∧ softScore c p ≤ 1 := by
  unfold softScore
  exact ⟨le_min ((regionAdjusted_lower c p).trans (keywordAdjusted_ge_region c p))
    (by norm_num), min_le_right _ _⟩

/-! ### Preference-score lemmas -/

theorem calculate_preference_score_bounds (c : Contract) (prefs : Option SearchPreference) :
    0 ≤ (calculate_preference_score c prefs).1 ∧
      (calculate_preference_score c prefs).1 ≤ 1 := by
  cases prefs with
  | none => norm_num [calculate_preference_score]
  | some p =>
    have h := softScore_bounds c p
    simp only [calculate_preference_score]
    exact ⟨by linarith [h.1], h.2⟩

theorem softScore_eq_one_of_no_penalty (c : Contract) (p : SearchPreference)
    (h : p.preferred_regions.isEmpty = true ∨ truthyS c.region = false ∨
      c.region.getD [] ∈ p.preferred_regions) :
    softScore c p = 1 := by
  unfold softScore
  apply min_eq_right
  refine le_trans ?_ (keywordAdjusted_ge_region c p)
  unfold regionAdjusted
  rcases h with h | h | h
  · simp [h]
  · simp [h]
  · rw [if_pos h]
    split <;> norm_num

/-! ### Claim theorems about the match scorer -/

/-- Claim C9: score_contract returns None whenever no company profile exists
for the firm, before any component score is computed, so a null result alone
does not distinguish hard-filter exclusion from a missing profile. -/
theorem C9_none_when_no_profile (c : Contract) (found : Bool) (sims : List ℚ) :
    score_contract c none found sims = none := rfl

/-- Claim C10: whenever the non-preferred-region penalty branch is not taken
(no preferred regions configured, no truthy contract region, or the region is
in the preferred list), the preference score is exactly 1 after capping; a
preference score below 1 arises only through the 0.6 region penalty; and with
no preferences configured the score is 1. -/
theorem C10_preference_score_base (c : Contract) (p : SearchPreference) :
    ((p.preferred_regions.isEmpty = true ∨ truthyS c.region = false ∨
        c.region.getD [] ∈ p.preferred_regions) →
      (calculate_preference_score c (some p)).1 = 1)
    ∧ ((calculate_preference_score c (some p)).1 < 1 →
        p.preferred_regions.isEmpty = false ∧ truthyS c.region = true ∧
          c.region.getD [] ∉ p.preferred_regions)
    ∧ (calculate_preference_score c none).1 = 1 := by
  refine ⟨fun h => softScore_eq_one_of_no_penalty c p h, fun hlt => ?_, rfl⟩
  have hlt' : softScore c p < 1 := hlt
  refine ⟨?_, ?_, ?_⟩
  · by_contra h
    rw [Bool.not_eq_false] at h
    exact absurd (softScore_eq_one_of_no_penalty c p (Or.inl h)) (ne_of_lt hlt')
  · by_contra h
    rw [Bool.not_eq_true] at h
    exact absurd (softScore_eq_one_of_no_penalty c p (Or.inr (Or.inl h)))
      (ne_of_lt hlt')
  · intro hmem
    exact absurd (softScore_eq_one_of_no_penalty c p (Or.inr (Or.inr hmem)))
      (ne_of_lt hlt')

/-- Witness for claim C10 at a concrete input: preferred region matched and a
keyword matched, and the returned preference score is still exactly 1. -/
theorem C10_witness : (calculate_preference_score cW (some pW)).1 = 1 :=
  (C10_preference_score_base cW pW).1 (Or.inr (Or.inr (by simp [cW, pW])))

/-- Claim C4 (amended): for every profile with preferences whose configured
minimum (resp. maximum) is truthy, and every contract with a truthy (nonzero)
stored value lying below the minimum or above the maximum, score_contract
returns None regardless of the capability similarities.  (The original claim
fails for a contract with stored value 0, which bypasses the range filter:
see the counterexample.) -/
theorem C4_amended_value_range_excludes (c : Contract) (pr : CompanyProfile)
    (p : SearchPreference) (found : Bool) (sims : List ℚ)
    (hp : pr.search_preference = some p)
    (hv : truthyQ c.contract_value = true)
    (h : (truthyQ p.min_contract_value = true ∧
            c.contract_value.getD 0 < p.min_contract_value.getD 0) ∨
         (truthyQ p.max_contract_value = true ∧
            p.max_contract_value.getD 0 < c.contract_value.getD 0)) :
    score_contract c (some pr) found sims = none := by
  have hpass : valuePassB c p = false := by
    unfold valuePassB
    rw [if_pos hv]
    rcases h with ⟨h1, h2⟩ | ⟨h1, h2⟩
    · simp [h1, h2]
    · simp [h1, h2]
  simp [score_contract, calculate_preference_score, hp, hpass]

/-- Witness for claim C4 (amended) at a concrete input: value 10000 below the
configured minimum 50000 is excluded. -/
theorem C4_amended_witness :
    score_contract
      { title := ("Office refurbishment".toList), description := none,
        buyer_name := none, contract_value := some 10000, region := none,
        qdrant_id := none }
      (some prC4) false [] = none := by
  apply C4_amended_value_range_excludes _ _ pC4 _ _ rfl (by norm_num [truthyQ])
  left
  constructor
  · norm_num [truthyQ, pC4]
  · norm_num [pC4]

/-- Claim C4 counterexample: a contract whose stored value 0 lies strictly
below the configured minimum 50000 is NOT excluded (Python truthiness skips
the whole value filter for a zero value): score_contract returns a score. -/
theorem C4_counterexample :
    cC4.contract_value = some 0 ∧ pC4.min_contract_value = some 50000 ∧
    prC4.search_preference = some pC4 ∧
    cC4.contract_value.getD 0 < pC4.min_contract_value.getD 0 ∧
    score_contract cC4 (some prC4) false [] =
      some { capability_score := 0, past_win_score := 0, preference_score := 1,
             total_score := 3/10 } := by
  refine ⟨rfl, rfl, rfl, by norm_num [cC4, pC4], ?_⟩
  norm_num [score_contract, calculate_capability_score, calculate_past_win_score,
    calculate_preference_score, valuePassB, excludedPassB, softScore,
    keywordAdjusted, regionAdjusted, matchedKeywords, truthyQ, truthyS,
    cC4, pC4, prC4]

/-- Claim C5: with a stored contract embedding and n >= 1 capability
similarities s1..sn, the capability score is the arithmetic mean of the
top min(3, n) similarity values (the first min(3, n) entries of the
descending sorted permutation of the similarities); with no contract
embedding reference, no contract vector in the store, no capabilities, or
no collected similarities, the score is exactly 0; and the spec scenario
cos = 0.8, 0.1 yields exactly 0.45. -/
theorem C5_capability_top3_mean (caps : List CompanyCapability)
    (qid : Option (List Char)) (sims : List ℚ) :
    (caps ≠ [] → truthyS qid = true → sims ≠ [] →
      ∃ l : List ℚ, sims.Perm l ∧ l.Pairwise (fun a b => b ≤ a) ∧
        (l.take 3).length = min 3 sims.length ∧
        calculate_capability_score caps qid true sims
          = (l.take 3).sum / ((min 3 sims.length : ℕ) : ℚ))
    ∧ calculate_capability_score caps qid false sims = 0
    ∧ calculate_capability_score [] qid true sims = 0
    ∧ calculate_capability_score caps none true sims = 0
    ∧ calculate_capability_score caps qid true [] = 0
    ∧ calculate_capability_score [⟨("cloud migration".toList), some ("e1".toList)⟩]
        (some ("q1".toList)) true [0.8, 0.1] = 0.45 := by
  refine ⟨?_, ?_, ?_, ?_, ?_, ?_⟩
  · intro hcaps hq hsims
    refine ⟨sortDescQ sims, (sortDescQ_perm sims).symm, sortDescQ_pairwise sims, ?_, ?_⟩
    · rw [List.length_take, (sortDescQ_perm sims).length_eq]
    · unfold calculate_capability_score
      rw [if_neg, if_neg, if_neg]
      · dsimp only
        rw [List.length_take, (sortDescQ_perm sims).length_eq]
      · simp [hsims]
      · simp
      · simp [List.isEmpty_iff, hcaps, hq]
  · unfold calculate_capability_score
    split
    · rfl
    · norm_num
  · simp [calculate_capability_score]
  · simp [calculate_capability_score, truthyS]
  · unfold calculate_capability_score
    split
    · rfl
    · norm_num
  · norm_num [calculate_capability_score, sortDescQ, isortBy, insBy, truthyS]

/-- Witness for claim C5 at the spec scenario: similarities 0.8 and 0.1,
capability score 0.45 = the mean of both values. -/
theorem C5_witness :
    ∃ l : List ℚ, ([(0.8 : ℚ), 0.1]).Perm l ∧ l.Pairwise (fun a b => b ≤ a) ∧
      (l.take 3).length = min 3 2 ∧
      calculate_capability_score [⟨("cloud migration".toList), some ("e1".toList)⟩]
        (some ("q1".toList)) true [0.8, 0.1] = (l.take 3).sum / ((min 3 2 : ℕ) : ℚ) := by
  have h := (C5_capability_top3_mean [⟨("cloud migration".toList), some ("e1".toList)⟩]
    (some ("q1".toList)) [0.8, 0.1]).1 (by simp) (by simp [truthyS]) (by simp)
  simpa using h

/-- Claim C1 (amended): whenever every capability cosine similarity lies in
[0, 1], a non-excluded score_contract result has total score in [0, 1]: the
past-win and preference components are capped at 1.0 before weighting, and
the capability component, while never capped in the code, is an average of
similarity values.  (The original claim fails because cosine similarity can
be negative and the capability component has no cap or floor: see the
counterexample, where the total is -1/10.) -/
theorem C1_amended_total_in_unit (c : Contract) (pr : CompanyProfile)
    (found : Bool) (sims : List ℚ) (out : MatchScores)
    (hs : ∀ s ∈ sims, 0 ≤ s ∧ s ≤ 1)
    (h : score_contract c (some pr) found sims = some out) :
    0 ≤ out.total_score ∧ out.total_score ≤ 1 := by
  unfold score_contract at h
  dsimp only at h
  split at h
  · exact absurd h (by simp)
  · injection h with h
    subst h
    dsimp only
    have hc := calculate_capability_score_bounds pr.capabilities c.qdrant_id found sims hs
    have hw := calculate_past_win_score_bounds c pr.past_wins
    have hp := calculate_preference_score_bounds c pr.search_preference
    constructor <;> nlinarith [hc.1, hc.2, hw.1, hw.2, hp.1, hp.2]

/-- Witness for claim C1 (amended) at a concrete input: a single similarity
1/2 in [0, 1], with the resulting total score 1/2 in [0, 1]. -/
theorem C1_amended_witness :
    0 ≤ ({ capability_score := 1/2, past_win_score := 0, preference_score := 1,
           total_score := 1/2 * 0.4 + 0 * 0.3 + 1 * 0.3 } : MatchScores).total_score ∧
    ({ capability_score := 1/2, past_win_score := 0, preference_score := 1,
       total_score := 1/2 * 0.4 + 0 * 0.3 + 1 * 0.3 } : MatchScores).total_score ≤ 1 := by
  apply C1_amended_total_in_unit cC1 prC1 true [1/2]
  · intro s hs
    rcases List.mem_singleton.mp hs with rfl
    norm_num
  · norm_num [score_contract, calculate_capability_score, calculate_past_win_score,
      calculate_preference_score, sortDescQ, isortBy, insBy, truthyS, cC1, prC1]

/-- Claim C1 counterexample: a single capability whose cosine similarity to
the contract vector is -1 (exactly the cosine similarity of the vectors [1]
and [-1]) yields a non-excluded total score of -1/10, outside [0, 1]; the
capability component is never capped before the weighted sum. -/
theorem C1_counterexample :
    (score_contract cC1 (some prC1) true [-1]).map (fun s => s.total_score)
        = some (-(1/10) : ℚ) ∧
    (-(1/10) : ℚ) < 0 ∧
    cosine_similarity [(1 : ℚ)] [(-1 : ℚ)] = -1 := by
  refine ⟨?_, by norm_num, ?_⟩
  · norm_num [score_contract, calculate_capability_score, calculate_past_win_score,
      calculate_preference_score, sortDescQ, isortBy, insBy, truthyS, cC1, prC1]
  · simp [cosine_similarity, dotQ]

/-! ### Claim theorems about the chunker: concrete evaluations -/

set_option maxRecDepth 40000 in
set_option maxHeartbeats 2000000 in
/-- Claim C3, evaluation at the failing input: chunk_document on doc3
takes the sentence fallback and emits as its first chunk exactly the
58-character document prefix (that prefix occurs at offset 0 and nowhere
else), whose first character lies on page 1, yet the chunk's page
metadata is 2 - the page map value at the offset of the second sentence,
which begins with the [Page 2] marker.  So a chunk's page does not always
equal the page of its first character. -/
theorem C3_code_evaluation :
    (chunkDocument cfgSmall doc3).map (fun c => (c.text.length, c.page))
        = [(58, 2), (14, 2)] ∧
    (chunkDocument cfgSmall doc3).head?.map (fun c => c.text) = some (doc3.take 58) ∧
    getPageForPosition (buildPageMap doc3) 0 = 1 ∧
    (List.range doc3.length).filter
      (fun o => startsWith (doc3.drop o) (doc3.take 58)) = [0] := by
  refine ⟨?_, ?_, ?_, ?_⟩
  · decide
  · decide
  · decide
  · decide

set_option maxRecDepth 40000 in
set_option maxHeartbeats 2000000 in
/-- Claim C7 counterexample: chunk_document with a configured threshold
of 60 emits (on the clause path, after recursive splitting) a chunk of 72
characters - a single sentence longer than the threshold is never split
further, so the bound fails; and at the default threshold 800, splitting
the oversized clause chunk bigClause emits an 832-character chunk the
same way. -/
theorem C7_counterexample :
    cfgSmall.max_chunk_size = 60 ∧
    (chunkDocument cfgSmall doc8).map (fun c => c.text.length) = [2, 72, 5, 53] ∧
    (chunkDocument cfgSmall doc8).any
      (fun c => decide (cfgSmall.max_chunk_size < c.text.length)) = true ∧
    ({} : ChunkCfg).max_chunk_size = 800 ∧
    (splitLargeChunk 800 [] ChunkKind.clause 0 bigClause).map
      (fun c => c.text.length) = [2, 832, 5] := by
  refine ⟨rfl, ?_, ?_, rfl, ?_⟩
  · decide
  · decide
  · decide

set_option maxRecDepth 40000 in
set_option maxHeartbeats 2000000 in
/-- Claim C8 counterexample: chunk_document emits two non-final chunks of
2 and 5 characters (sub-chunks of a split oversized clause, far below the
hard-coded 50-character minimum), and every chunk of this document is a
clause chunk, so the claim's only allowed exception (the final remainder
of the sentence fallback) does not apply; at the default threshold 800,
splitting the oversized clause chunk bigClause likewise emits a non-final
2-character chunk. -/
theorem C8_counterexample :
    ((chunkDocument cfgSmall doc8).dropLast.filter
        (fun c => decide (c.text.length < 50))).map (fun c => c.text.length)
      = [2, 5] ∧
    (chunkDocument cfgSmall doc8).all (fun c => c.kind == ChunkKind.clause) = true ∧
    ((splitLargeChunk 800 [] ChunkKind.clause 0 bigClause).dropLast.filter
        (fun c => decide (c.text.length < 50))).map (fun c => c.text.length)
      = [2] := by
  refine ⟨?_, ?_, ?_⟩
  · decide
  · decide
  · decide

/-! ### Loop invariants for the sentence-accumulation loops -/

theorem joinSpace_length (ss : List (List Char)) (h : ss ≠ []) :
    (joinSpace ss).length = (ss.map List.length).sum + (ss.length - 1) := by
  induction ss with
  | nil => exact absurd rfl h
  | cons s rest ih =>
    cases rest with
    | nil => simp [joinSpace]
    | cons b t =>
      have ihr := ih (by simp)
      simp only [joinSpace, List.length_append, List.length_cons, ihr,
        List.map_cons, List.sum_cons]
      omega

theorem splitChunkLoop_chunks (maxS : ℕ) (pm : List (ℕ × ℕ)) (kind : ChunkKind)
    (sp : ℕ) :
    ∀ (sents cur : List (List Char)) (curLen relPos : ℕ),
      curLen = (cur.map List.length).sum →
      (cur = [] ∨ cur.length = 1 ∨ (cur.map List.length).sum ≤ maxS) →
      ∀ c ∈ splitChunkLoop maxS pm kind sp sents cur curLen relPos,
        ∃ ss : List (List Char), ss ≠ [] ∧ c.text = joinSpace ss ∧
          (ss.length = 1 ∨ (ss.map List.length).sum ≤ maxS) := by
  intro sents
  induction sents with
  | nil =>
    intro cur curLen relPos hlen hinv c hc
    simp only [splitChunkLoop] at hc
    split at hc
    · simp at hc
    · rename_i hcur
      have hcur' : cur ≠ [] := by simpa [List.isEmpty_iff] using hcur
      rcases List.mem_singleton.mp hc with rfl
      refine ⟨cur, hcur', rfl, ?_⟩
      rcases hinv with h | h | h
      · exact absurd h hcur'
      · exact Or.inl h
      · exact Or.inr h
  | cons sRaw rest ih =>
    intro cur curLen relPos hlen hinv c hc
    simp only [splitChunkLoop] at hc
    by_cases hs : (stripWs sRaw).isEmpty
    · rw [if_pos hs] at hc
      exact ih cur curLen relPos hlen hinv c hc
    · rw [if_neg hs] at hc
      by_cases hcond : (maxS < curLen + (stripWs sRaw).length && !cur.isEmpty) = true
      · rw [if_pos hcond] at hc
        have hcur' : cur ≠ [] := by
          have h2 := hcond
          simp only [Bool.and_eq_true] at h2
          simpa [List.isEmpty_iff] using h2.2
        rcases List.mem_cons.mp hc with rfl | hc
        · refine ⟨cur, hcur', rfl, ?_⟩
          rcases hinv with h | h | h
          · exact absurd h hcur'
          · exact Or.inl h
          · exact Or.inr h
        · exact ih [stripWs sRaw] (stripWs sRaw).length
            (relPos + (stripWs sRaw).length + 1) (by simp) (Or.inr (Or.inl rfl)) c hc
      · rw [if_neg hcond] at hc
        refine ih _ _ _ ?_ ?_ c hc
        · simp [hlen]
        · by_cases hce : cur = []
          · subst hce
            exact Or.inr (Or.inl (by simp))
          · have h1 : ¬ maxS < curLen + (stripWs sRaw).length := by
              intro hlt
              exact hcond (by simp [hlt, List.isEmpty_iff, hce])
            refine Or.inr (Or.inr ?_)
            have : (((cur ++ [stripWs sRaw]).map List.length).sum)
                = curLen + (stripWs sRaw).length := by simp [hlen]
            omega

theorem sentChunkLoop_chunks (maxS overlap : ℕ) (pm : List (ℕ × ℕ))
    (hov : 1 ≤ overlap) :
    ∀ (sents cur : List (List Char)) (curLen pos : ℕ),
      curLen = (cur.map List.length).sum →
      (cur = [] ∨ (cur.map List.length).sum ≤ maxS ∨ cur.length ≤ overlap + 1) →
      ∀ c ∈ sentChunkLoop maxS overlap pm sents cur curLen pos,
        ∃ ss : List (List Char), ss ≠ [] ∧ c.text = joinSpace ss ∧
          ((ss.map List.length).sum ≤ maxS ∨ ss.length ≤ overlap + 1) := by
  intro sents
  induction sents with
  | nil =>
    intro cur curLen pos hlen hinv c hc
    simp only [sentChunkLoop] at hc
    split at hc
    · simp at hc
    · rename_i hcur
      have hcur' : cur ≠ [] := by simpa [List.isEmpty_iff] using hcur
      rcases List.mem_singleton.mp hc with rfl
      refine ⟨cur, hcur', rfl, ?_⟩
      rcases hinv with h | h | h
      · exact absurd h hcur'
      · exact Or.inl h
      · exact Or.inr h
  | cons sRaw rest ih =>
    intro cur curLen pos hlen hinv c hc
    simp only [sentChunkLoop] at hc
    by_cases hs : (stripWs sRaw).isEmpty
    · rw [if_pos hs] at hc
      exact ih cur curLen pos hlen hinv c hc
    · rw [if_neg hs] at hc
      by_cases hcond : (maxS < curLen + (stripWs sRaw).length && !cur.isEmpty) = true
      · rw [if_pos hcond] at hc
        have hcur' : cur ≠ [] := by
          have h2 := hcond
          simp only [Bool.and_eq_true] at h2
          simpa [List.isEmpty_iff] using h2.2
        rcases List.mem_cons.mp hc with rfl | hc
        · refine ⟨cur, hcur', rfl, ?_⟩
          rcases hinv with h | h | h
          · exact absurd h hcur'
          · exact Or.inl h
          · exact Or.inr h
        · -- carried-over state: at most `overlap` sentences plus the new one
          have hcl : (if overlap < cur.length then
              (if overlap = 0 then cur else cur.drop (cur.length - overlap))
              else ([] : List (List Char))).length ≤ overlap := by
            split
            · rw [if_neg (by omega)]
              rw [List.length_drop]
              omega
            · simp
          refine ih _ _ _ (by simp) ?_ c hc
          refine Or.inr (Or.inr ?_)
          rw [List.length_append]
          simpa using hcl
      · rw [if_neg hcond] at hc
        refine ih _ _ _ ?_ ?_ c hc
        · simp [hlen]
        · by_cases hce : cur = []
          · subst hce
            refine Or.inr (Or.inr ?_)
            simp
          · have h1 : ¬ maxS < curLen + (stripWs sRaw).length := by
              intro hlt
              exact hcond (by simp [hlt, List.isEmpty_iff, hce])
            refine Or.inr (Or.inl ?_)
            have : (((cur ++ [stripWs sRaw]).map List.length).sum)
                = curLen + (stripWs sRaw).length := by simp [hlen]
            omega

/-- Claim C7 (amended): after recursive splitting, each chunk produced by
_split_large_chunk either is a single sentence (which is never split
further and can exceed the threshold) or consists of sentences whose
total length excluding the single-space joiners is at most the threshold,
so its joined text exceeds the threshold by at most the number of joiner
spaces; each sentence-fallback chunk (for a positive overlap, as in the
default configuration) likewise either respects the threshold in that
sense or consists of at most overlap + 1 sentences (the carried-over
overlap plus one unconditionally appended sentence).  The original
absolute bound fails: see the counterexample. -/
theorem C7_amended_split_bound (maxS overlap : ℕ) (pm : List (ℕ × ℕ))
    (kind : ChunkKind) (sp : ℕ) (text t : List Char) :
    (∀ c ∈ splitLargeChunk maxS pm kind sp text,
      ∃ ss : List (List Char), ss ≠ [] ∧ c.text = joinSpace ss ∧
        (ss.length = 1 ∨ ((ss.map List.length).sum ≤ maxS ∧
          c.text.length ≤ maxS + (ss.length - 1))))
    ∧ (1 ≤ overlap → ∀ c ∈ chunkBySentences maxS overlap pm t,
      ∃ ss : List (List Char), ss ≠ [] ∧ c.text = joinSpace ss ∧
        (((ss.map List.length).sum ≤ maxS ∧
            c.text.length ≤ maxS + (ss.length - 1))
          ∨ ss.length ≤ overlap + 1)) := by
  constructor
  · intro c hc
    obtain ⟨ss, h1, h2, h3⟩ := splitChunkLoop_chunks maxS pm kind sp
      (sentSplit text) [] 0 0 rfl (Or.inl rfl) c hc
    refine ⟨ss, h1, h2, ?_⟩
    rcases h3 with h3 | h3
    · exact Or.inl h3
    · refine Or.inr ⟨h3, ?_⟩
      rw [h2, joinSpace_length ss h1]
      omega
  · intro hov c hc
    obtain ⟨ss, h1, h2, h3⟩ := sentChunkLoop_chunks maxS overlap pm hov
      (sentSplit t) [] 0 0 rfl (Or.inl rfl) c hc
    refine ⟨ss, h1, h2, ?_⟩
    rcases h3 with h3 | h3
    · refine Or.inl ⟨h3, ?_⟩
      rw [h2, joinSpace_length ss h1]
      omega
    · exact Or.inr h3

/-- Witness for claim C7 (amended): the single chunk of splitting
"ab. cd. ef." at threshold 10. -/
theorem C7_amended_witness :
    ∃ ss : List (List Char), ss ≠ [] ∧ chW7.text = joinSpace ss ∧
      (ss.length = 1 ∨ ((ss.map List.length).sum ≤ 10 ∧
        chW7.text.length ≤ 10 + (ss.length - 1))) :=
  (C7_amended_split_bound 10 1 [] ChunkKind.clause 0 ("ab. cd. ef.".toList) []).1
    chW7 (by decide)

/-- Claim C8 (amended): every chunk emitted by the clause path for a
boundary whose stripped text fits within max_chunk_size has at least 50
characters (the explicit under-50 discard), and such a chunk belongs to
the _chunk_by_clauses output; sub-chunks of split oversized clauses and
sentence-fallback chunks (including non-final ones) may be shorter - the
original claim's only exception (the final fallback remainder) is too
narrow: see the counterexample. -/
theorem C8_amended_min_size (cfg : ChunkCfg) (t : List Char)
    (pm : List (ℕ × ℕ)) (be : ℕ × ℕ) (c : LegalChunk)
    (hbe : be ∈ boundaryPairs t)
    (hsize : (stripWs (sliceL t be.1 be.2)).length ≤ cfg.max_chunk_size)
    (hc : c ∈ chunkForPair cfg t pm be) :
    50 ≤ c.text.length ∧ c ∈ chunkByClauses cfg t pm := by
  unfold chunkForPair at hc
  dsimp only at hc
  by_cases h50 : (stripWs (sliceL t be.1 be.2)).length < 50
  · rw [if_pos h50] at hc
    simp at hc
  · rw [if_neg h50, if_neg (by omega)] at hc
    rcases List.mem_singleton.mp hc with rfl
    have hbs : ¬ ((allBoundaryStarts t).isEmpty = true) := by
      intro hemp
      rw [List.isEmpty_iff] at hemp
      have : boundaryPairs t = [] := by
        unfold boundaryPairs
        rw [hemp]
        rfl
      rw [this] at hbe
      exact absurd hbe (List.not_mem_nil be)
    refine ⟨by simpa using Nat.le_of_not_lt h50, ?_⟩
    unfold chunkByClauses
    rw [if_neg hbs]
    refine List.mem_flatMap.mpr ⟨be, hbe, ?_⟩
    unfold chunkForPair
    dsimp only
    rw [if_neg h50, if_neg (by omega)]
    exact List.mem_singleton.mpr rfl

/-- Witness for claim C8 (amended): the single 54-character clause chunk
of docW8c. -/
theorem C8_amended_witness :
    50 ≤ chW8.text.length ∧
      chW8 ∈ chunkByClauses {} docW8c (buildPageMap docW8c) :=
  C8_amended_min_size {} docW8c (buildPageMap docW8c) (0, docW8c.length) chW8
    (by decide) (by decide) (by decide)

/-! ### Lemmas about the finditer scan and the page map -/

theorem drop_cons_drop (t : List Char) (p : ℕ) (c : Char) (rest : List Char)
    (h : t.drop p = c :: rest) : t.drop (p + 1) = rest := by
  have h1 : t.drop (p + 1) = (t.drop p).drop 1 := by
    rw [List.drop_drop, Nat.add_comm]
  rw [h1, h]
  rfl

theorem reScanAux_lb {A : Type} (m : List Char → Option (ℕ × A)) (anch : Bool) :
    ∀ (fuel : ℕ) (prev : Option Char) (p : ℕ) (s : List Char),
      ∀ x ∈ reScanAux m anch fuel prev p s, p ≤ x.1 := by
  intro fuel
  induction fuel with
  | zero => intro prev p s x hx; simp [reScanAux] at hx
  | succ fuel ih =>
    intro prev p s x hx
    cases s with
    | nil => simp [reScanAux] at hx
    | cons c rest =>
      simp only [reScanAux] at hx
      split at hx
      · cases hm : m (c :: rest) with
        | none =>
          rw [hm] at hx
          exact le_trans (Nat.le_succ p) (ih (some c) (p + 1) rest x hx)
        | some ea =>
          rw [hm] at hx
          rcases List.mem_cons.mp hx with rfl | hx
          · exact le_refl _
          · have := ih ((List.take (max ea.1 1) (c :: rest)).getLast?)
              (p + max ea.1 1) (List.drop (max ea.1 1) (c :: rest)) x hx
            omega
      · exact le_trans (Nat.le_succ p) (ih (some c) (p + 1) rest x hx)

theorem reScanAux_sorted {A : Type} (m : List Char → Option (ℕ × A)) (anch : Bool) :
    ∀ (fuel : ℕ) (prev : Option Char) (p : ℕ) (s : List Char),
      ((reScanAux m anch fuel prev p s).map (fun x => x.1)).Sorted (· < ·) := by
  intro fuel
  induction fuel with
  | zero => intro prev p s; simp [reScanAux]
  | succ fuel ih =>
    intro prev p s
    cases s with
    | nil => simp [reScanAux]
    | cons c rest =>
      simp only [reScanAux]
      split
      · cases hm : m (c :: rest) with
        | none => exact ih (some c) (p + 1) rest
        | some ea =>
          simp only [List.map_cons, List.sorted_cons]
          refine ⟨?_, ih _ _ _⟩
          intro b hb
          rcases List.mem_map.mp hb with ⟨x, hx, rfl⟩
          have h1 := reScanAux_lb m anch fuel
            ((List.take (max ea.1 1) (c :: rest)).getLast?)
            (p + max ea.1 1) (List.drop (max ea.1 1) (c :: rest)) x hx
          omega
      · exact ih (some c) (p + 1) rest

theorem reScanAux_sound {A : Type} (m : List Char → Option (ℕ × A)) (anch : Bool)
    (t : List Char) :
    ∀ (fuel p : ℕ) (prev : Option Char) (q : ℕ) (a : A),
      (q, a) ∈ reScanAux m anch fuel prev p (t.drop p) →
      ∃ e, m (t.drop q) = some (e, a) := by
  intro fuel
  induction fuel with
  | zero => intro p prev q a h; simp [reScanAux] at h
  | succ fuel ih =>
    intro p prev q a h
    cases hs : t.drop p with
    | nil => rw [hs] at h; simp [reScanAux] at h
    | cons c rest =>
      rw [hs] at h
      simp only [reScanAux] at h
      split at h
      · cases hm : m (c :: rest) with
        | none =>
          rw [hm] at h
          have hrest : t.drop (p + 1) = rest := drop_cons_drop t p c rest hs
          exact ih (p + 1) (some c) q a (by rw [hrest]; exact h)
        | some ea =>
          rw [hm] at h
          rcases List.mem_cons.mp h with h | h
          · have h1 : q = p ∧ a = ea.2 := by
              constructor
              · exact congrArg Prod.fst h
              · exact congrArg Prod.snd h
            rcases h1 with ⟨rfl, rfl⟩
            exact ⟨ea.1, by rw [hs, ← hm]⟩
          · have hdrop : t.drop (p + max ea.1 1) = List.drop (max ea.1 1) (c :: rest) := by
              rw [← hs, List.drop_drop, Nat.add_comm]
            exact ih (p + max ea.1 1) _ q a (by rw [hdrop]; exact h)
      · have hrest : t.drop (p + 1) = rest := drop_cons_drop t p c rest hs
        exact ih (p + 1) (some c) q a (by rw [hrest]; exact h)

theorem buildPageMap_sorted (t : List Char) :
    ((buildPageMap t).map (fun x => x.1)).Sorted (· < ·) :=
  reScanAux_sorted matchPageMarker false (t.length + 1) none 0 t

theorem buildPageMap_sound (t : List Char) (p n : ℕ)
    (h : (p, n) ∈ buildPageMap t) :
    ∃ e, matchPageMarker (t.drop p) = some (e, n) :=
  reScanAux_sound matchPageMarker false t (t.length + 1) 0 none p n (by simpa using h)

theorem foldl_max_spec (x : ℕ) (xs : List ℕ) :
    xs.foldl max x ∈ x :: xs ∧ ∀ y ∈ x :: xs, y ≤ xs.foldl max x := by
  induction xs generalizing x with
  | nil => simp
  | cons z zs ih =>
    rcases ih (max x z) with ⟨h1, h2⟩
    constructor
    · simp only [List.foldl_cons]
      rcases List.mem_cons.mp h1 with h | h
      · rw [h]
        rcases max_choice x z with hm | hm <;> rw [hm] <;> simp
      · exact List.mem_cons_of_mem _ (List.mem_cons_of_mem _ h)
    · intro y hy
      simp only [List.foldl_cons]
      rcases List.mem_cons.mp hy with rfl | hy
      · exact le_trans (le_max_left y z) (h2 _ (List.mem_cons_self _ _))
      · rcases List.mem_cons.mp hy with rfl | hy
        · exact le_trans (le_max_right x y) (h2 _ (List.mem_cons_self _ _))
        · exact h2 y (List.mem_cons_of_mem _ hy)

theorem dictGet_eq (pm : List (ℕ × ℕ)) (hnd : (pm.map (fun e => e.1)).Nodup)
    (k n : ℕ) (hmem : (k, n) ∈ pm) : dictGet pm k = n := by
  induction pm with
  | nil => simp at hmem
  | cons a rest ih =>
    simp only [List.map_cons, List.nodup_cons] at hnd
    rcases List.mem_cons.mp hmem with rfl | hm
    · have hk : k ∉ rest.map (fun e => e.1) := by simpa using hnd.1
      have hfind : rest.reverse.find? (fun e => e.1 == k) = none := by
        rw [List.find?_eq_none]
        intro x hx
        simp only [beq_iff_eq]
        intro hxk
        have hxm : x.1 ∈ rest.map (fun e => e.1) :=
          List.mem_map_of_mem _ (List.mem_reverse.mp hx)
        rw [hxk] at hxm
        exact hk hxm
      unfold dictGet
      rw [List.reverse_cons, List.find?_append, hfind]
      simp
    · have hkey : k ∈ rest.map (fun e => e.1) :=
        List.mem_map_of_mem _ hm
      have hka : k ≠ a.1 := fun h => hnd.1 (h ▸ hkey)
      have hrec := ih hnd.2 hm
      unfold dictGet at hrec ⊢
      rw [List.reverse_cons, List.find?_append]
      cases hfind : rest.reverse.find? (fun e => e.1 == k) with
      | some e =>
        rw [hfind] at hrec
        simpa [hfind] using hrec
      | none =>
        exfalso
        rw [List.find?_eq_none] at hfind
        have hcontra := hfind (k, n) (List.mem_reverse.mpr hm)
        simp at hcontra

theorem getPage_spec (pm : List (ℕ × ℕ)) (hnd : (pm.map (fun e => e.1)).Nodup)
    (P : ℕ) :
    ((∀ pr ∈ pm, ¬ pr.1 ≤ P) → getPageForPosition pm P = 1)
    ∧ (∀ pr ∈ pm, pr.1 ≤ P →
        ∃ q ∈ pm, q.1 ≤ P ∧ getPageForPosition pm P = q.2 ∧
          ∀ r ∈ pm, r.1 ≤ P → r.1 ≤ q.1) := by
  constructor
  · intro hno
    unfold getPageForPosition
    split
    · rfl
    · have hrel : (pm.map (fun e => e.1)).filter (fun q => decide (q ≤ P)) = [] := by
        rw [List.filter_eq_nil_iff]
        intro k hk
        rcases List.mem_map.mp hk with ⟨e, he, rfl⟩
        simpa using hno e he
      rw [hrel]
  · intro pr hpr hle
    unfold getPageForPosition
    rw [if_neg (by simp [List.isEmpty_iff]; intro h; rw [h] at hpr; simp at hpr)]
    have hprin : pr.1 ∈ (pm.map (fun e => e.1)).filter (fun q => decide (q ≤ P)) := by
      rw [List.mem_filter]
      exact ⟨List.mem_map_of_mem _ hpr, by simpa using hle⟩
    cases hrel : (pm.map (fun e => e.1)).filter (fun q => decide (q ≤ P)) with
    | nil => rw [hrel] at hprin; simp at hprin
    | cons x xs =>
      rcases foldl_max_spec x xs with ⟨hmem, hmax⟩
      have hmrel : xs.foldl max x ∈
          (pm.map (fun e => e.1)).filter (fun q => decide (q ≤ P)) := by
        rw [hrel]; exact hmem
      rw [List.mem_filter] at hmrel
      rcases List.mem_map.mp hmrel.1 with ⟨q, hq, hq1⟩
      refine ⟨q, hq, by simpa [hq1] using hmrel.2, ?_, ?_⟩
      · show dictGet pm (xs.foldl max x) = q.2
        rw [← hq1]
        exact dictGet_eq pm hnd q.1 q.2 hq
      · intro r hr hrle
        have hrin : r.1 ∈ x :: xs := by
          rw [← hrel, List.mem_filter]
          exact ⟨List.mem_map_of_mem _ hr, by simpa using hrle⟩
        rw [hq1]
        exact hmax r.1 hrin

/-- Claim C6: the page map sends each [Page N] marker's start offset to N
(every entry of the built map is a marker match at its offset); looking up
a position P returns the page of the marker with the largest offset at
most P; and when no marker offset is at most P - in particular when the
text has no markers at all - the lookup returns page 1. -/
theorem C6_page_map_lookup (t : List Char) (P : ℕ) :
    (∀ pr ∈ buildPageMap t, ∃ e, matchPageMarker (List.drop pr.1 t) = some (e, pr.2))
    ∧ ((∀ pr ∈ buildPageMap t, ¬ pr.1 ≤ P) → getPageForPosition (buildPageMap t) P = 1)
    ∧ (∀ pr ∈ buildPageMap t, pr.1 ≤ P →
        ∃ q ∈ buildPageMap t, q.1 ≤ P ∧
          getPageForPosition (buildPageMap t) P = q.2 ∧
          ∀ r ∈ buildPageMap t, r.1 ≤ P → r.1 ≤ q.1) := by
  have hnd : ((buildPageMap t).map (fun e => e.1)).Nodup :=
    List.Pairwise.imp (fun h => ne_of_lt h) (buildPageMap_sorted t)
  refine ⟨?_, (getPage_spec _ hnd P).1, (getPage_spec _ hnd P).2⟩
  intro pr hpr
  exact buildPageMap_sound t pr.1 pr.2 (by simpa using hpr)

/-- Witness for claim C6: in docW6 (markers at offsets 0 and 10 for pages
1 and 3), position 12 resolves to the marker at offset 10, page 3. -/
theorem C6_witness :
    ∃ q ∈ buildPageMap docW6, q.1 ≤ 12 ∧
      getPageForPosition (buildPageMap docW6) 12 = q.2 ∧
      ∀ r ∈ buildPageMap docW6, r.1 ≤ 12 → r.1 ≤ q.1 :=
  (C6_page_map_lookup docW6 12).2.2 (0, 1) (by decide) (by decide)

/-! ### Disjointness of the three boundary pattern classes

At any position, each of the three anchored patterns consumes the same
leading whitespace run and then requires a specific first (and second)
non-whitespace character: a digit for numbered_clause, and mutually
incompatible keyword prefixes for section_header and schedule.  Hence no
position is matched by two different pattern classes. -/

theorem takeWhile_pos_head {p : Char → Bool} {l : List Char}
    (h : 0 < (l.takeWhile p).length) : ∃ c r, l = c :: r ∧ p c = true := by
  cases l with
  | nil => simp at h
  | cons c r =>
    by_cases hp : p c
    · exact ⟨c, r, rfl, hp⟩
    · rw [List.takeWhile_cons, if_neg (by simpa using hp)] at h
      simp at h

theorem swci_one_heads {x : Char} {r : List Char} {a : Char} {w : List Char}
    (h : startsWithCI (x :: r) (a :: w) = true) : lowC x = lowC a := by
  simp only [startsWithCI, Bool.and_eq_true, beq_iff_eq] at h
  exact h.1

theorem swci_two {s : List Char} {a b : Char} {w : List Char}
    (h : startsWithCI s (a :: b :: w) = true) :
    ∃ x y r, s = x :: y :: r ∧ lowC x = lowC a ∧ lowC y = lowC b := by
  cases s with
  | nil => simp [startsWithCI] at h
  | cons x s1 =>
    cases s1 with
    | nil => simp [startsWithCI] at h
    | cons y r =>
      simp only [startsWithCI, Bool.and_eq_true, beq_iff_eq] at h
      exact ⟨x, y, r, rfl, h.1, h.2.1⟩

theorem swci_two_heads {x y : Char} {r : List Char} {a b : Char} {w : List Char}
    (h : startsWithCI (x :: y :: r) (a :: b :: w) = true) :
    lowC x = lowC a ∧ lowC y = lowC b := by
  simp only [startsWithCI, Bool.and_eq_true, beq_iff_eq] at h
  exact ⟨h.1, h.2.1⟩

theorem digit_lowC {c : Char} (h : digitB c = true) : lowC c = c := by
  unfold digitB at h
  rw [decide_eq_true_eq] at h
  unfold lowC
  rw [if_neg (by omega)]

theorem matchNumbered_head {s : List Char} {e : ℕ}
    (h : matchNumbered s = some e) :
    ∃ c r, s.drop (wsCount s) = c :: r ∧ digitB c = true := by
  unfold matchNumbered at h
  dsimp only at h
  by_cases hd : digCount (s.drop (wsCount s)) = 0
  · rw [if_pos hd] at h
    exact absurd h (by simp)
  · exact takeWhile_pos_head (by unfold digCount at hd; omega)

theorem matchSection_head {s : List Char} {e : ℕ}
    (h : matchSection s = some e) :
    ∃ w ∈ secWords, startsWithCI (s.drop (wsCount s)) w = true := by
  unfold matchSection at h
  dsimp only at h
  cases hk : kwFind secWords (s.drop (wsCount s)) with
  | none => rw [hk] at h; simp at h
  | some wl =>
    unfold kwFind at hk
    cases hf : secWords.find? (fun w => startsWithCI (s.drop (wsCount s)) w) with
    | none => rw [hf] at hk; simp at hk
    | some w => exact ⟨w, List.mem_of_find?_eq_some hf, List.find?_some hf⟩

theorem matchSchedule_head {s : List Char} {e : ℕ}
    (h : matchSchedule s = some e) :
    ∃ w ∈ schWords, startsWithCI (s.drop (wsCount s)) w = true := by
  unfold matchSchedule at h
  dsimp only at h
  cases hk : kwFind schWords (s.drop (wsCount s)) with
  | none => rw [hk] at h; simp at h
  | some wl =>
    unfold kwFind at hk
    cases hf : schWords.find? (fun w => startsWithCI (s.drop (wsCount s)) w) with
    | none => rw [hf] at hk; simp at hk
    | some w => exact ⟨w, List.mem_of_find?_eq_some hf, List.find?_some hf⟩

theorem numbered_section_absurd {s : List Char} {e1 e2 : ℕ}
    (h1 : matchNumbered s = some e1) (h2 : matchSection s = some e2) : False := by
  obtain ⟨c, r, hcr, hc⟩ := matchNumbered_head h1
  obtain ⟨w, hw, hsw⟩ := matchSection_head h2
  rw [hcr] at hsw
  simp only [secWords, List.mem_cons, List.not_mem_nil, or_false] at hw
  rcases hw with rfl | rfl | rfl
  all_goals
    have hx := swci_one_heads hsw
    rw [digit_lowC hc] at hx
    rw [hx] at hc
    exact absurd hc (by decide)

theorem numbered_schedule_absurd {s : List Char} {e1 e2 : ℕ}
    (h1 : matchNumbered s = some e1) (h2 : matchSchedule s = some e2) : False := by
  obtain ⟨c, r, hcr, hc⟩ := matchNumbered_head h1
  obtain ⟨w, hw, hsw⟩ := matchSchedule_head h2
  rw [hcr] at hsw
  simp only [schWords, List.mem_cons, List.not_mem_nil, or_false] at hw
  rcases hw with rfl | rfl | rfl
  all_goals
    have hx := swci_one_heads hsw
    rw [digit_lowC hc] at hx
    rw [hx] at hc
    exact absurd hc (by decide)

theorem section_schedule_absurd {s : List Char} {e1 e2 : ℕ}
    (h1 : matchSection s = some e1) (h2 : matchSchedule s = some e2) : False := by
  obtain ⟨w1, hw1, hsw1⟩ := matchSection_head h1
  obtain ⟨w2, hw2, hsw2⟩ := matchSchedule_head h2
  simp only [secWords, List.mem_cons, List.not_mem_nil, or_false] at hw1
  simp only [schWords, List.mem_cons, List.not_mem_nil, or_false] at hw2
  rcases hw1 with rfl | rfl | rfl <;> rcases hw2 with rfl | rfl | rfl
  all_goals
    obtain ⟨x, y, r, hxy, hx1, hy1⟩ := swci_two hsw1
    rw [hxy] at hsw2
    obtain ⟨hx2, hy2⟩ := swci_two_heads hsw2
  all_goals
    first
      | exact absurd (hx1.symm.trans hx2) (by decide)
      | exact absurd (hy1.symm.trans hy2) (by decide)

/-! ### The merged boundary list is strictly sorted -/

theorem boundaryStarts_sound (m : List Char → Option ℕ) (t : List Char) (p : ℕ)
    (h : p ∈ boundaryStarts m t) : ∃ e, m (t.drop p) = some e := by
  unfold boundaryStarts at h
  rcases List.mem_map.mp h with ⟨⟨q, a⟩, hq, rfl⟩
  have hsound := reScanAux_sound (fun s => (m s).map (fun e => (e, ()))) true t
    (t.length + 1) 0 none q a (by simpa [reScan] using hq)
  obtain ⟨e, he⟩ := hsound
  dsimp only at he
  cases hm : m (t.drop q) with
  | none => rw [hm] at he; simp at he
  | some e2 => exact ⟨e2, rfl⟩

theorem boundaryStarts_sorted (m : List Char → Option ℕ) (t : List Char) :
    (boundaryStarts m t).Sorted (· < ·) :=
  reScanAux_sorted (fun s => (m s).map (fun e => (e, ()))) true (t.length + 1) none 0 t

theorem concatStarts_nodup (t : List Char) :
    (boundaryStarts matchNumbered t ++ boundaryStarts matchSection t ++
      boundaryStarts matchSchedule t).Nodup := by
  have hn : (boundaryStarts matchNumbered t).Nodup :=
    List.Pairwise.imp (fun h => ne_of_lt h) (boundaryStarts_sorted _ t)
  have hs : (boundaryStarts matchSection t).Nodup :=
    List.Pairwise.imp (fun h => ne_of_lt h) (boundaryStarts_sorted _ t)
  have hh : (boundaryStarts matchSchedule t).Nodup :=
    List.Pairwise.imp (fun h => ne_of_lt h) (boundaryStarts_sorted _ t)
  rw [List.nodup_append, List.nodup_append]
  refine ⟨⟨hn, hs, ?_⟩, hh, ?_⟩
  · intro p hp hps
    obtain ⟨e1, he1⟩ := boundaryStarts_sound matchNumbered t p hp
    obtain ⟨e2, he2⟩ := boundaryStarts_sound matchSection t p hps
    exact numbered_section_absurd he1 he2
  · intro p hp hph
    rcases List.mem_append.mp hp with hp | hp
    · obtain ⟨e1, he1⟩ := boundaryStarts_sound matchNumbered t p hp
      obtain ⟨e2, he2⟩ := boundaryStarts_sound matchSchedule t p hph
      exact numbered_schedule_absurd he1 he2
    · obtain ⟨e1, he1⟩ := boundaryStarts_sound matchSection t p hp
      obtain ⟨e2, he2⟩ := boundaryStarts_sound matchSchedule t p hph
      exact section_schedule_absurd he1 he2

/-- Claim C2: the candidate boundary start-offsets of the numbered-clause,
section-header and schedule pattern classes, merged and sorted by offset,
form a strictly increasing list: the merged list is sorted ascending and
duplicate-free, so deduplicating it by offset is the identity, and chunk
extraction walks it in strictly ascending offset order.  Moreover no
single position can be matched by two different pattern classes at all
(their required first non-whitespace characters are incompatible), so an
offset never contributes two boundaries. -/
theorem C2_boundaries_sorted_dedup (t : List Char) :
    (allBoundaryStarts t).Sorted (· < ·) ∧
    (allBoundaryStarts t).dedup = allBoundaryStarts t ∧
    (∀ p e, matchNumbered (t.drop p) = some e →
      matchSection (t.drop p) = none ∧ matchSchedule (t.drop p) = none) ∧
    (∀ p e, matchSection (t.drop p) = some e →
      matchSchedule (t.drop p) = none) := by
  have hperm := isortBy_perm (fun a b => decide (a ≤ b))
    (boundaryStarts matchNumbered t ++ boundaryStarts matchSection t ++
      boundaryStarts matchSchedule t)
  have hnodup : (allBoundaryStarts t).Nodup := by
    unfold allBoundaryStarts
    exact (hperm.nodup_iff).mpr (concatStarts_nodup t)
  have hsortedLE : (allBoundaryStarts t).Pairwise (fun a b : ℕ => a ≤ b) := by
    have h := pairwise_isortBy (fun a b : ℕ => decide (a ≤ b))
      (fun a b => by rcases le_total a b with h | h <;> simp [h])
      (fun a b c hab hbc => by
        simp only [decide_eq_true_eq] at hab hbc ⊢
        exact hab.trans hbc)
      (boundaryStarts matchNumbered t ++ boundaryStarts matchSection t ++
        boundaryStarts matchSchedule t)
    exact h.imp (fun hab => by simpa using hab)
  have hsorted : (allBoundaryStarts t).Sorted (· < ·) :=
    (hsortedLE.and hnodup).imp (fun hab => lt_of_le_of_ne hab.1 hab.2)
  refine ⟨hsorted, List.dedup_eq_self.mpr hnodup, ?_, ?_⟩
  · intro p e he
    constructor
    · cases hm : matchSection (t.drop p) with
      | none => rfl
      | some e2 => exact absurd (numbered_section_absurd he hm) (by simp)
    · cases hm : matchSchedule (t.drop p) with
      | none => rfl
      | some e2 => exact absurd (numbered_schedule_absurd he hm) (by simp)
  · intro p e he
    cases hm : matchSchedule (t.drop p) with
    | none => rfl
    | some e2 => exact absurd (section_schedule_absurd he hm) (by simp)

set_option maxRecDepth 10000 in
/-- Witness for claim C2: at offset 0 of doc8 the numbered-clause pattern
matches (consuming 4 characters) and consequently neither the
section-header nor the schedule pattern matches there. -/
theorem C2_witness :
    matchSection (doc8.drop 0) = none ∧ matchSchedule (doc8.drop 0) = none :=
  (C2_boundaries_sorted_dedup doc8).2.2.1 0 4 (by decide)

/-! ### The mathematical range of cosine similarity

Despite the "0-1 range" docstring of _cosine_similarity, the function
ranges over [-1, 1] (Cauchy-Schwarz); this is what grounds the choice of
hypotheses in the claim-C1 theorems: the upper bound 1 on a similarity
always holds, while nonnegativity does not. -/

theorem dotQ_eq_sum (v w : List ℚ) :
    dotQ v w = ∑ i ∈ Finset.range (min v.length w.length),
      v.getD i 0 * w.getD i 0 := by
  induction v generalizing w with
  | nil => simp [dotQ]
  | cons a v ih =>
    cases w with
    | nil => simp [dotQ]
    | cons b w =>
      have hstep : dotQ (a :: v) (b :: w) = a * b + dotQ v w := by
        simp [dotQ, List.zip_cons_cons]
      rw [hstep, ih w, List.length_cons, List.length_cons, Nat.succ_min_succ,
        Finset.sum_range_succ']
      simp [Rat.add_comm]

theorem dotQ_self_nonneg (v : List ℚ) : 0 ≤ dotQ v v := by
  rw [dotQ_eq_sum]
  exact Finset.sum_nonneg (fun i _ => mul_self_nonneg _)

theorem dotQ_sq_le (v w : List ℚ) : (dotQ v w) ^ 2 ≤ dotQ v v * dotQ w w := by
  rw [dotQ_eq_sum v w, dotQ_eq_sum v v, dotQ_eq_sum w w, min_self, min_self]
  have hcs := Finset.sum_mul_sq_le_sq_mul_sq
    (Finset.range (min v.length w.length))
    (fun i => v.getD i 0) (fun i => w.getD i 0)
  have hfv : (∑ i ∈ Finset.range (min v.length w.length), v.getD i 0 ^ 2) ≤
      ∑ i ∈ Finset.range v.length, v.getD i 0 * v.getD i 0 := by
    rw [Finset.sum_congr rfl (fun i _ => pow_two (v.getD i 0))]
    exact Finset.sum_le_sum_of_subset_of_nonneg
      (Finset.range_subset.mpr (min_le_left _ _))
      (fun i _ _ => mul_self_nonneg _)
  have hgw : (∑ i ∈ Finset.range (min v.length w.length), w.getD i 0 ^ 2) ≤
      ∑ i ∈ Finset.range w.length, w.getD i 0 * w.getD i 0 := by
    rw [Finset.sum_congr rfl (fun i _ => pow_two (w.getD i 0))]
    exact Finset.sum_le_sum_of_subset_of_nonneg
      (Finset.range_subset.mpr (min_le_right _ _))
      (fun i _ _ => mul_self_nonneg _)
  refine hcs.trans (mul_le_mul hfv hgw ?_ ?_)
  · exact Finset.sum_nonneg (fun i _ => sq_nonneg _)
  · exact Finset.sum_nonneg (fun i _ => mul_self_nonneg _)

theorem cosine_similarity_bounds (v w : List ℚ) :
    -1 ≤ cosine_similarity v w ∧ cosine_similarity v w ≤ 1 := by
  unfold cosine_similarity
  dsimp only
  split
  · norm_num
  · rename_i hnz
    have hv : (0:ℝ) ≤ Real.sqrt (dotQ v v) := Real.sqrt_nonneg _
    have hw : (0:ℝ) ≤ Real.sqrt (dotQ w w) := Real.sqrt_nonneg _
    have hnp : (0:ℝ) < Real.sqrt (dotQ v v) * Real.sqrt (dotQ w w) :=
      lt_of_le_of_ne (mul_nonneg hv hw) (Ne.symm hnz)
    have hsq : ((dotQ v w : ℝ)) ^ 2 ≤ (dotQ v v : ℝ) * (dotQ w w : ℝ) := by
      have := dotQ_sq_le v w
      exact_mod_cast this
    have habs : |(dotQ v w : ℝ)| ≤ Real.sqrt (dotQ v v) * Real.sqrt (dotQ w w) := by
      rw [← Real.sqrt_mul (by exact_mod_cast dotQ_self_nonneg v)]
      rw [← Real.sqrt_sq_eq_abs]
      exact Real.sqrt_le_sqrt hsq
    have hdiv : |(dotQ v w : ℝ) / (Real.sqrt (dotQ v v) * Real.sqrt (dotQ w w))| ≤ 1 := by
      rw [abs_div, abs_of_pos hnp]
      exact (div_le_one hnp).mpr habs
    exact abs_le.mp hdiv
